import Mathlib

/-!
Verification of the section extractor `parse-vue-component.py`.

The program text is embedded shallowly: Python strings become `List Char`,
the `while` loops of `find_matching_brace` and of the template scan become
structural recursions that walk the remaining character list while carrying
the previously seen character (the loops only ever read `text[i]`, `text[i-1]`
and forward slices, so this is an exact translation), and `re.search` with
the program's concrete patterns (literal text separated by greedy `\s*`
between non-whitespace literals, for which greedy matching and maximal munch
agree) becomes a first-position search with a maximal whitespace skip.
The driver at the bottom of the script is modelled as a pure function from
the input buffer to the list of write/print effects it performs, in order;
the line count inside a confirmation message is elided (the effect records
which section's confirmation prints, which is all the claims mention).
-/

/-- The backslash character. -/
def bs : Char := '\\'

/-- The backtick character (code 96). -/
def bt : Char := Char.ofNat 96

/-- The single-quote character (code 39). -/
def squo : Char := Char.ofNat 39

/-- Python `text[i]` for an in-range index (callers only read in range;
the default is never exercised on the paths the program takes). -/
def charAt (text : List Char) (i : Nat) : Char := (text.drop i).headD ' '

/-- Membership test of line 17 of the source: `char in ['"', "'", '\x60']`. -/
def isQuoteChar (c : Char) : Bool := c == '"' || c == squo || c == bt

/-- The guard `i == 0 or text[i-1] != '\\'` of line 17, with the previous
character carried explicitly (`none` encodes `i == 0`). -/
def noPrecedingEsc : Option Char → Bool
  | none => true
  | some p => p != bs

/-- The scanner state of `find_matching_brace`: lines 8-11 of the source. -/
structure QState where
  in_string : Bool
  string_char : Option Char
  depth : Int
deriving DecidableEq

/-- One iteration of the body of the `while` loop of `find_matching_brace`
(lines 14-29): the quote handling of lines 17-23 followed by the depth
update of lines 25-29, for the character `c` whose predecessor is `prev`. -/
def qstep (c : Char) (prev : Option Char) (s : QState) : QState :=
  let toggles := isQuoteChar c && noPrecedingEsc prev
  let s1 :=
    if toggles then
      if !s.in_string then { s with in_string := true, string_char := some c }
      else if some c == s.string_char then { s with in_string := false, string_char := none }
      else s
    else s
  if !s1.in_string then
    if c == '\x7b' then { s1 with depth := s1.depth + 1 }
    else if c == '\x7d' then { s1 with depth := s1.depth - 1 }
    else s1
  else s1

/-- The `while` loop of `find_matching_brace` (lines 13-33): `rest` is the
unread part of the buffer, `prev` the character before it, `i` the absolute
index of its head.  Lines 28-31 return `i` exactly when the character is `}`,
the scanner is outside a string, and the decremented depth is zero. -/
def fmbGo : List Char → Option Char → Nat → QState → Int
  | [], _, _, _ => -1
  | c :: rest, prev, i, s =>
    let s1 := qstep c prev s
    if c == '\x7d' && !s1.in_string && s1.depth == 0 then Int.ofNat i
    else fmbGo rest (some c) (i + 1) s1

/-- The previous character of position `start` (`none` at the left edge),
as consulted by the `i == 0 or text[i-1] != '\\'` guard. -/
def prevOpt (text : List Char) (start : Nat) : Option Char :=
  if start == 0 then none else some (charAt text (start - 1))

/-- `find_matching_brace` (lines 6-35): depth 0, not in a string, no
string character, scanning from `start_pos`; `-1` when the buffer ends. -/
def find_matching_brace (text : List Char) (start_pos : Nat) : Int :=
  fmbGo (text.drop start_pos) (prevOpt text start_pos) start_pos ⟨false, none, 0⟩

/-- The scanner state after processing `k` characters of `rest` (whose
head's predecessor is `prev`), by the loop body `qstep`; used to speak
about the quote-aware depth trace of `find_matching_brace`. -/
def qrunGo : List Char → Option Char → QState → Nat → QState
  | _, _, s, 0 => s
  | [], _, s, _ + 1 => s
  | c :: rest, prev, s, k + 1 => qrunGo rest (some c) (qstep c prev s) k

/-- The state of the `find_matching_brace` scan started at `start` after
its first `k` iterations. -/
def qrun (text : List Char) (start k : Nat) : QState :=
  qrunGo (text.drop start) (prevOpt text start) ⟨false, none, 0⟩ k

/-- Python `\s` (the whitespace class used by the anchors' `\s*`). -/
def isPySpace (c : Char) : Bool :=
  c == ' ' || c == '\t' || c == '\n' || c == '\r' || c == '\x0b' || c == '\x0c'

/-- Length of the leading whitespace run. -/
def countSpaces : List Char → Nat
  | [] => 0
  | c :: rest => if isPySpace c then countSpaces rest + 1 else 0

/-- Index after the maximal whitespace run starting at `i`: the effect of a
greedy `\s*` whose successor in the pattern is a non-whitespace literal. -/
def skipSpaces (text : List Char) (i : Nat) : Nat := i + countSpaces (text.drop i)

/-- `text` carries the literal `lit` at position `i`. -/
def litAt (text : List Char) (i : Nat) (lit : List Char) : Bool :=
  (text.drop i).take lit.length == lit

/-- `re.search`: try `f` (match at a fixed position, returning the match
end) at positions `p, p+1, ...` for `n` attempts, first success wins.  The
program's patterns all start with a non-empty literal, so attempts beyond
the buffer cannot match and `n := length` covers every relevant position. -/
def searchGo (f : Nat → Option Nat) : Nat → Nat → Option Nat
  | 0, _ => none
  | n + 1, p =>
    match f p with
    | some e => some e
    | none => searchGo f n (p + 1)

/-- Match of the line-40 pattern `template:\s*\\x60` at position `p`
(the raw regex requires a literal backslash and then a backtick after the
key); returns the match end. -/
def matchTemplateAt (content : List Char) (p : Nat) : Option Nat :=
  if litAt content p ("template:".data) then
    let q := skipSpaces content (p + ("template:".data).length)
    if litAt content q [bs, bt] then some (q + 2) else none
  else none

/-- `re.search(r'template:\s*\\x60', content)` of line 40, returning the
match end (`match.end()` is the only part of the match the program uses). -/
def searchTemplate (content : List Char) : Option Nat :=
  searchGo (matchTemplateAt content) content.length 0

/-- The lookahead test of line 55: `',' in after or '\x7d' in after`. -/
def afterHasEnd (after : List Char) : Bool := after.contains ',' || after.contains '\x7d'

/-- One pass of Python `str.replace` where the pattern is the two-character
string `a ++ b` and the replacement the one-character string `r`: leftmost
match first, non-overlapping, scanning left to right. -/
def pyReplace2 (a b r : Char) : List Char → List Char
  | [] => []
  | [c] => [c]
  | c :: d :: rest =>
    if c == a && d == b then r :: pyReplace2 a b r rest
    else c :: pyReplace2 a b r (d :: rest)

/-- The unescape chain of line 58:
`.replace('\\x60', 'x60').replace("\\'", "'").replace('\\$', '$')`. -/
def pyUnescape (t : List Char) : List Char :=
  pyReplace2 bs '$' '$' (pyReplace2 bs squo squo (pyReplace2 bs bt bt t))

/-- The scanning `while` loop of `extract_template` (lines 46-60): `prev`
is the character before the head of the unread part, `acc` the characters
consumed since the match end, in reverse (so `acc.reverse` is the slice
`content[start:i]` of line 56).  A `\x60` preceded by `\\` as a two-character
window is skipped whole (lines 49-51); an unescaped `\x60` returns the
unescaped slice when the next nine characters contain `,` or `}` (lines
52-59) and is otherwise ordinary content; the loop falling off the end is
`None` (line 62).  A single remaining character can never match the
two-character window nor offer a non-empty lookahead, so it yields `None`. -/
def etGo : List Char → Char → List Char → Option (List Char)
  | [], _, _ => none
  | [_], _, _ => none
  | c :: d :: rest, prev, acc =>
    if c == bs && d == bt then etGo rest bt (bt :: bs :: acc)
    else if c == bt && prev != bs then
      if afterHasEnd ((d :: rest).take 9) then some (pyUnescape (acc.reverse))
      else etGo (d :: rest) c (c :: acc)
    else etGo (d :: rest) c (c :: acc)

/-- `extract_template` (lines 37-62).  The anchor's match end is at least
eleven, so `start - 1` is a genuine index and Python's `content[i-1]` never
wraps around on the reachable calls. -/
def extract_template (content : List Char) : Option (List Char) :=
  match searchTemplate content with
  | none => none
  | some start => etGo (content.drop start) (charAt content (start - 1)) []

/-- Python `content[a:b]` for `0 ≤ a`, `0 ≤ b` (clamping included). -/
def pySlice (text : List Char) (a b : Nat) : List Char := (text.take b).drop a

/-- Match of the line-66 pattern `{section_name}:\s*\x7b` at position `p`
(the section names used contain no regex metacharacters); returns the
match end, which is one past the opening brace. -/
def matchSectionAt (section_name : List Char) (content : List Char) (p : Nat) : Option Nat :=
  if litAt content p (section_name ++ [':']) then
    let q := skipSpaces content (p + section_name.length + 1)
    if charAt content q == '\x7b' then some (q + 1) else none
  else none

/-- The `re.search` of line 67, returning the match end. -/
def searchSection (content : List Char) (section_name : List Char) : Option Nat :=
  searchGo (matchSectionAt section_name content) content.length 0

/-- `extract_section` (lines 64-76): anchor search, brace match from one
before the match end, `None` on either failure, else the inner slice. -/
def extract_section (content : List Char) (section_name : List Char) : Option (List Char) :=
  match searchSection content section_name with
  | none => none
  | some e =>
    let start := e - 1
    let stop := find_matching_brace content start
    if stop == -1 then none else some (pySlice content (start + 1) stop.toNat)

/-- Match of the line-80 pattern `data\(\)\s*\x7b\s*return\s*\x7b` at `p`;
returns the match end (one past the second opening brace). -/
def matchDataAt (content : List Char) (p : Nat) : Option Nat :=
  if litAt content p ("data()".data) then
    let q1 := skipSpaces content (p + 6)
    if charAt content q1 == '\x7b' then
      let q2 := skipSpaces content (q1 + 1)
      if litAt content q2 ("return".data) then
        let q3 := skipSpaces content (q2 + 6)
        if charAt content q3 == '\x7b' then some (q3 + 1) else none
      else none
    else none
  else none

/-- The `re.search` of line 80, returning the match end. -/
def searchData (content : List Char) : Option Nat :=
  searchGo (matchDataAt content) content.length 0

/-- `extract_data` (lines 78-89). -/
def extract_data (content : List Char) : Option (List Char) :=
  match searchData content with
  | none => none
  | some e =>
    let start := e - 1
    let stop := find_matching_brace content start
    if stop == -1 then none else some (pySlice content (start + 1) stop.toNat)

/-- Match of the line-93 pattern `{hook_name}\(\)\s*\x7b` at `p`. -/
def matchHookAt (hook_name : List Char) (content : List Char) (p : Nat) : Option Nat :=
  if litAt content p (hook_name ++ "()".data) then
    let q := skipSpaces content (p + hook_name.length + 2)
    if charAt content q == '\x7b' then some (q + 1) else none
  else none

/-- The `re.search` of line 94, returning the match end. -/
def searchHook (content : List Char) (hook_name : List Char) : Option Nat :=
  searchGo (matchHookAt hook_name content) content.length 0

/-- `extract_lifecycle` (lines 91-103). -/
def extract_lifecycle (content : List Char) (hook_name : List Char) : Option (List Char) :=
  match searchHook content hook_name with
  | none => none
  | some e =>
    let start := e - 1
    let stop := find_matching_brace content start
    if stop == -1 then none else some (pySlice content (start + 1) stop.toNat)

/-- The five output files of the driver (lines 117-140); `outPath` below
records the concrete path each stands for. -/
inductive OutFile where
  | template
  | data
  | computed
  | methods
  | mounted
deriving DecidableEq

/-- The hard-coded output path of each section's file. -/
def outPath : OutFile → String
  | .template => "frontend/vue-template.html"
  | .data => "frontend/vue-data.js"
  | .computed => "frontend/vue-computed.js"
  | .methods => "frontend/vue-methods.js"
  | .mounted => "frontend/vue-mounted.js"

/-- An observable effect of the driver: a file write, a per-section
confirmation line (its line count elided), or the final completion line. -/
inductive Effect where
  | write (f : OutFile) (data : List Char)
  | confirm (f : OutFile)
  | done
deriving DecidableEq

/-- One `if <section>:` block of the driver (for example lines 117-120):
Python truthiness skips both the write and the print when the result is
`None` or the empty string. -/
def sectionEffects (f : OutFile) (r : Option (List Char)) : List Effect :=
  match r with
  | some t => if t = [] then [] else [Effect.write f t, Effect.confirm f]
  | none => []

/-- The driver (lines 110-142) as the ordered list of effects it performs
on a given input buffer. -/
def driver (content : List Char) : List Effect :=
  sectionEffects .template (extract_template content) ++
  sectionEffects .data (extract_data content) ++
  sectionEffects .computed (extract_section content ("computed".data)) ++
  sectionEffects .methods (extract_section content ("methods".data)) ++
  sectionEffects .mounted (extract_lifecycle content ("mounted".data)) ++
  [Effect.done]

/-- The extractor the driver runs for each output file (lines 110-114). -/
def extractOf : OutFile → List Char → Option (List Char)
  | .template, content => extract_template content
  | .data, content => extract_data content
  | .computed, content => extract_section content ("computed".data)
  | .methods, content => extract_section content ("methods".data)
  | .mounted, content => extract_lifecycle content ("mounted".data)

/-- The anchor search underlying each section's extractor. -/
def searchOf : OutFile → List Char → Option Nat
  | .template, content => searchTemplate content
  | .data, content => searchData content
  | .computed, content => searchSection content ("computed".data)
  | .methods, content => searchSection content ("methods".data)
  | .mounted, content => searchHook content ("mounted".data)

/-- The shape of template-literal bodies the backtick scan passes through
whole: every backtick occurs as the second character of a backslash-backtick
pair — the escaped form the source document uses inside its literal. -/
inductive TBody : List Char → Prop
  | nil : TBody []
  | chr {c : Char} {rest : List Char} : c ≠ bt → TBody rest → TBody (c :: rest)
  | esc {rest : List Char} : TBody rest → TBody (bs :: bt :: rest)

/-- The buffer family of the escaped-anchor template convention: the
`template:` key, whitespace, the escaped opening backtick, a body, the
unescaped closing backtick, a comma, and arbitrary trailing text. -/
def templateBuf (body post : List Char) : List Char :=
  "template: ".data ++ bs :: bt :: (body ++ bt :: ',' :: post)

/-- The data snippet of the C8 scenario:
`data() \x7b return \x7b count: 0 \x7d; \x7d`. -/
def dataSnippet : List Char := "data() \x7b return \x7b count: 0 \x7d; \x7d".data

theorem getD_drop (l : List Char) (n k : Nat) (d : Char) :
    (l.drop n).getD k d = l.getD (n + k) d := by
  induction l generalizing n k with
  | nil => simp
  | cons c rest ih =>
    cases n with
    | zero => simp
    | succ m =>
      rw [List.drop_succ_cons, ih m k]
      have : m + 1 + k = (m + k) + 1 := by omega
      rw [this, List.getD_cons_succ]

/-- The scan of `find_matching_brace` either exhausts the buffer with `-1`
or stops at an absolute index `j` inside the given suffix whose character
is a closing brace. -/
theorem fmbGo_sound (chars : List Char) : ∀ (prev : Option Char) (i : Nat) (s : QState),
    fmbGo chars prev i s = -1 ∨
    ∃ j : Nat, fmbGo chars prev i s = (j : Int) ∧ i ≤ j ∧ j < i + chars.length ∧
      chars.getD (j - i) ' ' = '\x7d' := by
  induction chars with
  | nil => intro prev i s; left; rfl
  | cons c rest ih =>
    intro prev i s
    by_cases h : (c == '\x7d' && !(qstep c prev s).in_string && (qstep c prev s).depth == 0) = true
    · right
      refine ⟨i, ?_, Nat.le_refl i, by simp, ?_⟩
      · simp only [fmbGo]
        rw [if_pos h]
        rfl
      · have hc : (c == '\x7d') = true := by
          rcases Bool.and_eq_true .. |>.mp h with ⟨h1, _⟩
          exact (Bool.and_eq_true .. |>.mp h1).1
        simp [Nat.sub_self, List.getD_cons_zero, beq_iff_eq.mp hc]
    · have hrec : fmbGo (c :: rest) prev i s = fmbGo rest (some c) (i + 1) (qstep c prev s) := by
        simp only [fmbGo]
        rw [if_neg h]
      rcases ih (some c) (i + 1) (qstep c prev s) with h1 | ⟨j, hj, hij, hlen, hch⟩
      · left; rw [hrec]; exact h1
      · right
        refine ⟨j, by rw [hrec]; exact hj, by omega, by simp; omega, ?_⟩
        have : j - i = (j - (i + 1)) + 1 := by omega
        rw [this, List.getD_cons_succ]
        exact hch

/-- C10: for every buffer and every start index, `find_matching_brace`
terminates (it is a total function of this development) and returns either
`-1` or an index `j` with `start_pos ≤ j < length` whose character is `}`;
the embedding reads the buffer only through total accessors, mirroring the
source's guarded `i < len(text)` and `i == 0` accesses. -/
theorem C10_find_matching_brace_returns_brace_index_or_sentinel
    (text : List Char) (start_pos : Nat) :
    find_matching_brace text start_pos = -1 ∨
    ∃ j : Nat, find_matching_brace text start_pos = (j : Int) ∧ start_pos ≤ j ∧
      j < text.length ∧ text.getD j ' ' = '\x7d' := by
  rcases fmbGo_sound (text.drop start_pos) (prevOpt text start_pos) start_pos ⟨false, none, 0⟩
    with h | ⟨j, hj, hij, hlen, hch⟩
  · left; exact h
  · right
    refine ⟨j, hj, hij, ?_, ?_⟩
    · rw [List.length_drop] at hlen; omega
    · rw [getD_drop] at hch
      have : start_pos + (j - start_pos) = j := by omega
      rwa [this] at hch

/-- C1: while the scanner of `find_matching_brace` is inside a string
literal, a brace character leaves the depth unchanged (braces are not quote
characters, so the quote state also stays); and on the buffer `{"a}b"}`
scanned from index 0 the returned index is 6, the final `}`, not the `}`
inside the string at index 3. -/
theorem C1_instring_braces_not_counted :
    (∀ (c : Char) (prev : Option Char) (s : QState), s.in_string = true →
      (c = '\x7b' ∨ c = '\x7d') → (qstep c prev s).depth = s.depth) ∧
    find_matching_brace ("\x7b\"a\x7db\"\x7d".data) 0 = 6 := by
  constructor
  · intro c prev s hs hc
    have hq : isQuoteChar c = false := by rcases hc with rfl | rfl <;> decide
    simp [qstep, hq, hs]
  · decide

theorem C1_witness :
    (⟨true, some '"', 1⟩ : QState).in_string = true ∧
      (qstep '\x7d' (some 'a') ⟨true, some '"', 1⟩).depth = 1 :=
  ⟨rfl, C1_instring_braces_not_counted.1 '\x7d' (some 'a') ⟨true, some '"', 1⟩ rfl (Or.inr rfl)⟩

/-- C2: (i) a quote character preceded by a backslash never toggles the
quote state; (ii) outside a string, an unescaped quote character opens a
string and records itself as the opening character; (iii) inside a string,
only the recorded character (unescaped) closes it; (iv) a differing quote
character inside an active string leaves the whole state unchanged; and on
the buffer `{"a\"b"}` scanned from 0 the escaped quote does not toggle and
the returned index is 7, the final `}`. -/
theorem C2_quote_toggle_rules :
    (∀ (c : Char) (s : QState), (qstep c (some bs) s).in_string = s.in_string ∧
      (qstep c (some bs) s).string_char = s.string_char) ∧
    (∀ (c : Char) (prev : Option Char) (s : QState), s.in_string = false →
      isQuoteChar c = true → noPrecedingEsc prev = true →
      (qstep c prev s).in_string = true ∧ (qstep c prev s).string_char = some c) ∧
    (∀ (c : Char) (prev : Option Char) (s : QState), s.in_string = true →
      s.string_char = some c → isQuoteChar c = true → noPrecedingEsc prev = true →
      (qstep c prev s).in_string = false ∧ (qstep c prev s).string_char = none) ∧
    (∀ (c q : Char) (prev : Option Char) (s : QState), s.in_string = true →
      s.string_char = some q → c ≠ q → qstep c prev s = s) ∧
    find_matching_brace ("\x7b\"a\\\"b\"\x7d".data) 0 = 7 := by
  refine ⟨?_, ?_, ?_, ?_, by decide⟩
  · intro c s
    have hne : noPrecedingEsc (some bs) = false := by decide
    cases hs : s.in_string <;>
      by_cases hb : (c == '\x7b') = true <;>
        by_cases hd : (c == '\x7d') = true <;>
          simp [qstep, hne, hs, hb, hd]
  · intro c prev s hs hq hp
    simp [qstep, hq, hp, hs]
  · intro c prev s hs hsc hq hp
    have hbeq : (some c == s.string_char) = true := by rw [hsc]; simp
    by_cases hb : (c == '\x7b') = true
    · simp [qstep, hq, hp, hs, hbeq, hb]
    · by_cases hd : (c == '\x7d') = true <;> simp [qstep, hq, hp, hs, hbeq, hb, hd]
  · intro c q prev s hs hsc hne
    have hbeq : (some c == s.string_char) = false := by
      rw [hsc]
      exact beq_eq_false_iff_ne.mpr (by simpa using hne)
    by_cases ht : (isQuoteChar c && noPrecedingEsc prev) = true
    · simp [qstep, ht, hs, hbeq]
    · simp [qstep, ht, hs]

theorem C2_witness :
    (qstep '"' none ⟨false, none, 0⟩).in_string = true ∧
    (qstep '"' none ⟨false, none, 0⟩).string_char = some '"' ∧
    qstep squo (some 'a') ⟨true, some '"', 2⟩ = ⟨true, some '"', 2⟩ ∧
    (qstep '"' (some 'b') ⟨true, some '"', 2⟩).in_string = false :=
  ⟨(C2_quote_toggle_rules.2.1 '"' none ⟨false, none, 0⟩ rfl (by decide) rfl).1,
   (C2_quote_toggle_rules.2.1 '"' none ⟨false, none, 0⟩ rfl (by decide) rfl).2,
   C2_quote_toggle_rules.2.2.2.1 squo '"' (some 'a') ⟨true, some '"', 2⟩ rfl rfl (by decide),
   (C2_quote_toggle_rules.2.2.1 '"' (some 'b') ⟨true, some '"', 2⟩ rfl rfl (by decide) (by decide)).1⟩

theorem qrunGo_zero (chars : List Char) (prev : Option Char) (s : QState) :
    qrunGo chars prev s 0 = s := by
  cases chars <;> rfl

theorem qrunGo_cons_succ (c : Char) (rest : List Char) (prev : Option Char) (s : QState)
    (k : Nat) : qrunGo (c :: rest) prev s (k + 1) = qrunGo rest (some c) (qstep c prev s) k := rfl

/-- One loop iteration changes the depth by `+1` at an opening brace
outside a string, by `-1` at a closing brace outside a string, and not at
all otherwise. -/
theorem qstep_depth_cases (c : Char) (prev : Option Char) (s : QState) :
    (qstep c prev s).depth = s.depth ∨
    ((qstep c prev s).depth = s.depth + 1 ∧ c = '\x7b' ∧ (qstep c prev s).in_string = false) ∨
    ((qstep c prev s).depth = s.depth - 1 ∧ c = '\x7d' ∧ (qstep c prev s).in_string = false) := by
  by_cases ht : (isQuoteChar c && noPrecedingEsc prev) = true <;>
    cases hs : s.in_string <;>
      by_cases hsc : (some c == s.string_char) = true <;>
        by_cases hb : (c == '\x7b') = true <;>
          by_cases hd : (c == '\x7d') = true <;>
            simp [qstep, ht, hs, hsc, hb, hd] <;>
              simp_all [beq_iff_eq]

/-- While the brace scan runs from a strictly positive depth and finally
returns the index `j`, the depth stays strictly positive after every
iteration before the returning one and is zero after it. -/
theorem fmbGo_pos (chars : List Char) : ∀ (prev : Option Char) (i : Nat) (s : QState) (j : Nat),
    1 ≤ s.depth → fmbGo chars prev i s = (j : Int) →
    i ≤ j ∧ (∀ k, k ≤ j - i → 1 ≤ (qrunGo chars prev s k).depth) ∧
      (qrunGo chars prev s (j + 1 - i)).depth = 0 := by
  induction chars with
  | nil =>
    intro prev i s j _ h
    simp only [fmbGo] at h
    omega
  | cons c rest ih =>
    intro prev i s j hpos h
    by_cases hc : (c == '\x7d' && !(qstep c prev s).in_string && (qstep c prev s).depth == 0) = true
    · have hji : (i : Int) = (j : Int) := by
        rw [← h]; simp only [fmbGo]; rw [if_pos hc]; rfl
      have hj : j = i := by omega
      subst hj
      refine ⟨Nat.le_refl _, ?_, ?_⟩
      · intro k hk
        have hk0 : k = 0 := by omega
        subst hk0
        simpa [qrunGo_zero] using hpos
      · have h1 : j + 1 - j = 1 := by omega
        rw [h1, qrunGo_cons_succ, qrunGo_zero]
        exact beq_iff_eq.mp (Bool.and_eq_true .. |>.mp hc).2
    · have hrec : fmbGo rest (some c) (i + 1) (qstep c prev s) = (j : Int) := by
        rw [← h]; simp only [fmbGo]; rw [if_neg hc]
      have h1 : 1 ≤ (qstep c prev s).depth := by
        rcases qstep_depth_cases c prev s with hd | ⟨hd, _, _⟩ | ⟨hd, hcc, hins⟩
        · omega
        · omega
        · by_cases hz : (qstep c prev s).depth = 0
          · exfalso
            apply hc
            have hcb : (c == '\x7d') = true := beq_iff_eq.mpr hcc
            simp [hcb, hins, hz]
          · omega
      obtain ⟨hij, hall, hfin⟩ := ih (some c) (i + 1) (qstep c prev s) j h1 hrec
      refine ⟨by omega, ?_, ?_⟩
      · intro k hk
        cases k with
        | zero => simpa [qrunGo_zero] using hpos
        | succ m =>
          rw [qrunGo_cons_succ]
          exact hall m (by omega)
      · have h2 : j + 1 - i = (j + 1 - (i + 1)) + 1 := by omega
        rw [h2, qrunGo_cons_succ]
        exact hfin

/-- C5: when `find_matching_brace` is called on the index of an opening
brace and returns `j`, the quote-aware depth trace over the scanned span is
zero after the iteration that consumes position `j` and nonzero after every
earlier iteration — it returns to zero exactly once, at `j`; and for a
buffer with `methods: { foo() { return 1; } }` followed by unrelated text
with stray closing braces, `extract_section` for `methods` stops at the
closing brace matching its own opening brace. -/
theorem C5_depth_returns_to_zero_exactly_at_match :
    (∀ (text : List Char) (start j : Nat), charAt text start = '\x7b' →
      find_matching_brace text start = (j : Int) →
      (qrun text start (j + 1 - start)).depth = 0 ∧
      ∀ k, 1 ≤ k → start + k ≤ j → (qrun text start k).depth ≠ 0) ∧
    extract_section ("methods: \x7b foo() \x7b return 1; \x7d \x7d junk \x7d\x7d".data)
      ("methods".data) = some (" foo() \x7b return 1; \x7d ".data) := by
  constructor
  · intro text start j hopen h
    unfold find_matching_brace at h
    cases hdrop : text.drop start with
    | nil =>
      rw [hdrop] at h
      simp only [fmbGo] at h
      omega
    | cons c rest =>
      have hc : c = '\x7b' := by
        have hhead : charAt text start = c := by rw [charAt, hdrop]; rfl
        rw [← hhead, hopen]
      subst hc
      rw [hdrop] at h
      rw [show fmbGo ('\x7b' :: rest) (prevOpt text start) start ⟨false, none, 0⟩
            = fmbGo rest (some '\x7b') (start + 1) ⟨false, none, 1⟩ from rfl] at h
      obtain ⟨hij, hall, hfin⟩ :=
        fmbGo_pos rest (some '\x7b') (start + 1) ⟨false, none, 1⟩ j (le_refl _) h
      constructor
      · rw [qrun, hdrop, show j + 1 - start = (j + 1 - (start + 1)) + 1 from by omega,
          qrunGo_cons_succ]
        rw [show qstep '\x7b' (prevOpt text start) ⟨false, none, 0⟩
              = (⟨false, none, 1⟩ : QState) from rfl]
        exact hfin
      · intro k hk1 hkj
        cases k with
        | zero => omega
        | succ m =>
          rw [qrun, hdrop, qrunGo_cons_succ]
          rw [show qstep '\x7b' (prevOpt text start) ⟨false, none, 0⟩
                = (⟨false, none, 1⟩ : QState) from rfl]
          have := hall m (by omega)
          omega
  · decide

theorem C5_witness :
    (qrun ("\x7ba\x7d".data) 0 3).depth = 0 ∧ (qrun ("\x7ba\x7d".data) 0 1).depth ≠ 0 := by
  have h := C5_depth_returns_to_zero_exactly_at_match.1 ("\x7ba\x7d".data) 0 2
    (by decide) (by decide)
  exact ⟨h.1, h.2 1 (by decide) (by decide)⟩

/-- C9: a scan that exhausts the buffer yields the sentinel `-1` (the brace
matcher) or `None` (the backtick scan) — the functions are total, no
exception —, and each extractor maps that failure to an absent result:
shown structurally for all four extractors, and on concrete truncated
buffers where the anchor is present but the delimiter never closes. -/
theorem C9_scan_failure_maps_to_absent :
    (∀ (prev : Option Char) (i : Nat) (s : QState), fmbGo [] prev i s = -1) ∧
    (∀ (prev : Char) (acc : List Char), etGo [] prev acc = none) ∧
    (∀ (content section_name : List Char) (e : Nat),
      searchSection content section_name = some e →
      find_matching_brace content (e - 1) = -1 →
      extract_section content section_name = none) ∧
    (∀ (content : List Char) (e : Nat), searchData content = some e →
      find_matching_brace content (e - 1) = -1 → extract_data content = none) ∧
    (∀ (content hook_name : List Char) (e : Nat), searchHook content hook_name = some e →
      find_matching_brace content (e - 1) = -1 → extract_lifecycle content hook_name = none) ∧
    (∀ (content : List Char) (start : Nat), searchTemplate content = some start →
      etGo (content.drop start) (charAt content (start - 1)) [] = none →
      extract_template content = none) ∧
    find_matching_brace ("methods: \x7b x".data) 9 = -1 ∧
    extract_section ("methods: \x7b x".data) ("methods".data) = none ∧
    extract_template ("template: \\`abc".data) = none := by
  refine ⟨fun _ _ _ => rfl, fun _ _ => rfl, ?_, ?_, ?_, ?_, by decide, by decide, by decide⟩
  · intro content name e hs hf
    simp only [extract_section, hs]
    simp [hf]
  · intro content e hs hf
    simp only [extract_data, hs]
    simp [hf]
  · intro content hook e hs hf
    simp only [extract_lifecycle, hs]
    simp [hf]
  · intro content start hs het
    simp only [extract_template, hs]
    exact het

theorem C9_witness : extract_section ("methods: \x7b x".data) ("methods".data) = none :=
  C9_scan_failure_maps_to_absent.2.2.1 ("methods: \x7b x".data) ("methods".data) 10
    (by decide) (by decide)

/-- A write effect appears in a driver block exactly for that block's file
when the extraction result is a non-empty span (Python truthiness). -/
theorem write_mem_sectionEffects (f g : OutFile) (t : List Char) (r : Option (List Char)) :
    Effect.write f t ∈ sectionEffects g r ↔ f = g ∧ r = some t ∧ t ≠ [] := by
  cases r with
  | none => simp [sectionEffects]
  | some u =>
    by_cases hu : u = []
    · subst hu
      simp only [sectionEffects, if_pos rfl]
      constructor
      · intro h
        exact absurd h (List.not_mem_nil _)
      · rintro ⟨-, h2, h3⟩
        exact absurd (Option.some.inj h2).symm h3
    · simp only [sectionEffects, if_neg hu]
      constructor
      · intro h
        rcases List.mem_cons.mp h with h1 | h1
        · injection h1 with hf ht
          exact ⟨hf, by rw [ht], by rw [ht]; exact hu⟩
        · rcases List.mem_singleton.mp h1 with h2
          exact absurd h2 (by intro hx; cases hx)
      · rintro ⟨rfl, h2, h3⟩
        rcases Option.some.inj h2 with rfl
        exact List.mem_cons_self _ _

/-- A confirmation effect appears in a driver block exactly for that
block's file when the extraction result is a non-empty span. -/
theorem confirm_mem_sectionEffects (f g : OutFile) (r : Option (List Char)) :
    Effect.confirm f ∈ sectionEffects g r ↔ f = g ∧ ∃ t, r = some t ∧ t ≠ [] := by
  cases r with
  | none => simp [sectionEffects]
  | some u =>
    by_cases hu : u = []
    · subst hu
      simp only [sectionEffects, if_pos rfl]
      constructor
      · intro h
        exact absurd h (List.not_mem_nil _)
      · rintro ⟨-, t, h2, h3⟩
        exact absurd (Option.some.inj h2).symm h3
    · simp only [sectionEffects, if_neg hu]
      constructor
      · intro h
        rcases List.mem_cons.mp h with h1 | h1
        · exact absurd h1 (by intro hx; cases hx)
        · rcases List.mem_singleton.mp h1 with h2
          injection h2 with hf
          exact ⟨hf, u, rfl, hu⟩
      · rintro ⟨rfl, t, h2, h3⟩
        rcases Option.some.inj h2 with rfl
        exact List.mem_cons_of_mem _ (List.mem_cons_self _ _)

/-- The driver writes a section's file with contents `t` exactly when that
section's extractor returned the non-empty span `t`. -/
theorem write_mem_driver (content : List Char) (f : OutFile) (t : List Char) :
    Effect.write f t ∈ driver content ↔ extractOf f content = some t ∧ t ≠ [] := by
  cases f <;>
    simp [driver, extractOf, List.mem_append, write_mem_sectionEffects]

/-- The driver prints a section's confirmation exactly when that section's
extractor returned a non-empty span. -/
theorem confirm_mem_driver (content : List Char) (f : OutFile) :
    Effect.confirm f ∈ driver content ↔ ∃ t, extractOf f content = some t ∧ t ≠ [] := by
  cases f <;>
    simp [driver, extractOf, List.mem_append, confirm_mem_sectionEffects]

/-- C4 counterexample: on the buffer `computed: {}` the `computed`
extraction succeeds with the (empty) span between the braces, yet the
driver performs no write and no confirmation at all (Python truthiness
treats the empty string like `None`), refuting the claimed
"if and only if extraction succeeded (returned a span)". -/
theorem C4_counterexample_empty_span_not_written :
    extract_section ("computed: \x7b\x7d".data) ("computed".data) = some [] ∧
    driver ("computed: \x7b\x7d".data) = [Effect.done] := by
  constructor <;> decide

/-- C4 amended: the driver writes a section's file and prints its
confirmation if and only if that section's extraction succeeded with a
non-empty span; and when the section's anchor pattern is absent the
extractor returns an absent result and the driver writes no file and
prints no confirmation for it. -/
theorem C4_amended_write_iff_nonempty_extraction (content : List Char) (f : OutFile) :
    (∀ t, Effect.write f t ∈ driver content ↔ extractOf f content = some t ∧ t ≠ []) ∧
    (Effect.confirm f ∈ driver content ↔ ∃ t, extractOf f content = some t ∧ t ≠ []) ∧
    (searchOf f content = none → extractOf f content = none ∧
      (∀ t, Effect.write f t ∉ driver content) ∧ Effect.confirm f ∉ driver content) := by
  refine ⟨fun t => write_mem_driver content f t, confirm_mem_driver content f, fun h => ?_⟩
  have hnone : extractOf f content = none := by
    cases f <;>
      simp_all [extractOf, searchOf, extract_template, extract_section, extract_data,
        extract_lifecycle]
  refine ⟨hnone, fun t hmem => ?_, fun hmem => ?_⟩
  · rcases (write_mem_driver content f t).mp hmem with ⟨h1, -⟩
    rw [hnone] at h1
    cases h1
  · rcases (confirm_mem_driver content f).mp hmem with ⟨t, h1, -⟩
    rw [hnone] at h1
    cases h1

theorem C4_witness :
    extract_section ([] : List Char) ("computed".data) = none ∧
      Effect.confirm OutFile.computed ∉ driver ([] : List Char) := by
  have h := (C4_amended_write_iff_nonempty_extraction [] OutFile.computed).2.2 (by decide)
  exact ⟨h.1, h.2.2⟩

/-- C6: in the template scan, an escaped backtick (backslash followed by
backtick) is skipped as a literal without closing the scan; an unescaped
backtick terminates the literal if and only if the next nine characters
contain a comma or a closing brace, and is otherwise treated as template
content with the scan continuing past it; concretely, a backtick whose
lookahead shows neither terminator ends up inside the extracted template. -/
theorem C6_backtick_termination_heuristic :
    (∀ (rest acc : List Char) (prev : Char),
      etGo (bs :: bt :: rest) prev acc = etGo rest bt (bt :: bs :: acc)) ∧
    (∀ (rest acc : List Char) (prev : Char), prev ≠ bs →
      afterHasEnd (rest.take 9) = true →
      etGo (bt :: rest) prev acc = some (pyUnescape acc.reverse)) ∧
    (∀ (rest acc : List Char) (prev : Char), prev ≠ bs →
      afterHasEnd (rest.take 9) = false →
      etGo (bt :: rest) prev acc = etGo rest bt (bt :: acc)) ∧
    extract_template ("template: \\`ab`cdefghijk`,\x7d".data)
      = some ("ab`cdefghijk".data) := by
  refine ⟨fun rest acc prev => rfl, ?_, ?_, by decide⟩
  · intro rest acc prev hprev hafter
    cases rest with
    | nil => simp [afterHasEnd] at hafter
    | cons d rest2 =>
      rw [List.take_succ_cons] at hafter
      have hb2 : (bt == bs) = false := by decide
      have hp : (prev != bs) = true := bne_iff_ne.mpr hprev
      simp [etGo, hb2, hp, hafter]
  · intro rest acc prev hprev hafter
    cases rest with
    | nil => rfl
    | cons d rest2 =>
      rw [List.take_succ_cons] at hafter
      have hb2 : (bt == bs) = false := by decide
      have hp : (prev != bs) = true := bne_iff_ne.mpr hprev
      simp [etGo, hb2, hp, hafter]

theorem C6_witness :
    etGo (bt :: (",x".data)) 'a' ("ba".data) = some (pyUnescape ("ba".data).reverse) ∧
    etGo (bt :: ("xxxxxxxxxx".data)) 'a' [] = etGo ("xxxxxxxxxx".data) bt [bt] :=
  ⟨C6_backtick_termination_heuristic.2.1 (",x".data) ("ba".data) 'a' (by decide) (by decide),
   C6_backtick_termination_heuristic.2.2.1 ("xxxxxxxxxx".data) [] 'a' (by decide) (by decide)⟩

theorem TBody.head_ne_bt {x : Char} {xs : List Char} (h : TBody (x :: xs)) : x ≠ bt := by
  cases h with
  | chr hne _ => exact hne
  | esc _ => decide

/-- The template scan consumes a `TBody` wholly (no early termination, no
missed close), stops at the unescaped closing backtick in front of a comma,
and returns the unescaped slice accumulated so far plus the body; the side
condition rules out a trailing lone backslash, which would hide the close. -/
theorem etGo_through_body {body : List Char} (hb : TBody body) :
    ∀ (prev : Char) (acc post : List Char), body.getLastD prev ≠ bs →
      etGo (body ++ bt :: ',' :: post) prev acc = some (pyUnescape (acc.reverse ++ body)) := by
  induction hb with
  | nil =>
    intro prev acc post hlast
    have hp : (prev != bs) = true := bne_iff_ne.mpr (by simpa using hlast)
    have hb2 : (bt == bs) = false := by decide
    have haft : afterHasEnd (',' :: post.take 8) = true := by
      simp [afterHasEnd]
    simp [etGo, hb2, hp, haft]
  | @chr c rest hne htail ih =>
    intro prev acc post hlast
    rw [List.getLastD_cons] at hlast
    rw [List.cons_append]
    cases hrest : rest ++ bt :: ',' :: post with
    | nil => exact absurd hrest (by simp)
    | cons d tail =>
      have hw : (c == bs && d == bt) = false := by
        by_cases hcbs : c = bs
        · have hdbt : d ≠ bt := by
            cases rest with
            | nil =>
              exfalso
              exact absurd hcbs (by simpa using hlast)
            | cons x rest2 =>
              rw [List.cons_append] at hrest
              injection hrest with h1 h2
              rw [← h1]
              exact htail.head_ne_bt
          simp [hdbt]
        · simp [hcbs]
      have hcb : (c == bt) = false := by simp [hne]
      rw [show etGo (c :: d :: tail) prev acc = etGo (d :: tail) c (c :: acc) from by
        simp [etGo, hw, hcb]]
      rw [← hrest]
      rw [ih c (c :: acc) post hlast]
      simp
  | @esc rest htail ih =>
    intro prev acc post hlast
    rw [List.getLastD_cons, List.getLastD_cons] at hlast
    rw [List.cons_append, List.cons_append]
    simp [etGo]
    rw [ih bt (bt :: bs :: acc) post hlast]
    simp

theorem searchGo_head (f : Nat → Option Nat) (n p e : Nat) (h : f p = some e)
    (hn : 1 ≤ n) : searchGo f n p = some e := by
  cases n with
  | zero => omega
  | succ m => simp [searchGo, h]

/-- On a `templateBuf`, the anchor matches at position 0 with match end 12
and the scan passes the body whole, so `extract_template` returns exactly
the unescaped body. -/
theorem extract_template_family (body post : List Char) (hb : TBody body)
    (hlast : body.getLastD bt ≠ bs) :
    extract_template (templateBuf body post) = some (pyUnescape body) := by
  have hsearch : searchTemplate (templateBuf body post) = some 12 :=
    searchGo_head _ _ 0 12 rfl
      (by simp only [templateBuf, List.length_append, List.length_cons]; omega)
  simp only [extract_template, hsearch]
  rw [show (12 : Nat) - 1 = 11 from rfl]
  rw [show charAt (templateBuf body post) 11 = bt from rfl]
  rw [show (templateBuf body post).drop 12 = body ++ bt :: ',' :: post from rfl]
  rw [etGo_through_body hb bt [] post hlast]
  simp

/-- C3 counterexample: this buffer follows the documented convention — a
`template:` key followed by a backtick-delimited literal (with a trailing
comma, inside a component that also has a `data()` section) — yet
`extract_template` returns an absent result, because the anchor regex
`template:\s*\\x60` demands an escaped (backslash-prefixed) opening
backtick. -/
theorem C3_counterexample_plain_backtick_absent :
    extract_template
      ("template: `<div>x</div>`,\ndata() \x7b return \x7b a: 1 \x7d; \x7d".data) = none := by
  decide

/-- C3 amended: for every buffer of the convention the code actually
implements — `template:` followed by whitespace and an escaped backtick
`\x5c\x60` opening the literal, a body whose backticks are all escaped (and
not ending in a lone backslash), and an unescaped closing backtick followed
by a comma — `extract_template` locates the literal and returns a present
result. -/
theorem C3_amended_escaped_anchor_extracts (body post : List Char) (hb : TBody body)
    (hlast : body.getLastD bt ≠ bs) :
    (extract_template (templateBuf body post)).isSome = true := by
  rw [extract_template_family body post hb hlast]
  rfl

theorem C3_witness : (extract_template (templateBuf ("x".data) [])).isSome = true :=
  C3_amended_escaped_anchor_extracts ("x".data) [] (TBody.chr (by decide) TBody.nil) (by decide)

/-- A replace pass whose two-character pattern occurs in the input puts its
replacement character into the output. -/
theorem mem_pyReplace2_of_adj (a b r : Char) :
    ∀ (u v : List Char), r ∈ pyReplace2 a b r (u ++ a :: b :: v) := by
  intro u
  induction u with
  | nil =>
    intro v
    simp [pyReplace2]
  | cons c u2 ih =>
    intro v
    rw [List.cons_append]
    cases h2 : u2 ++ a :: b :: v with
    | nil => exact absurd h2 (by simp)
    | cons d tail =>
      by_cases hm : (c == a && d == b) = true
      · simp [pyReplace2, hm]
      · simp only [pyReplace2]
        rw [if_neg hm]
        exact List.mem_cons_of_mem _ (h2 ▸ ih v)

/-- A character that is neither pattern character survives a replace pass. -/
theorem mem_pyReplace2_of_mem (a b r c : Char) (hca : c ≠ a) (hcb : c ≠ b) :
    ∀ (xs : List Char), c ∈ xs → c ∈ pyReplace2 a b r xs := by
  intro xs
  induction xs using pyReplace2.induct a b r with
  | case1 => intro h; exact absurd h (List.not_mem_nil c)
  | case2 x => intro h; simpa [pyReplace2] using h
  | case3 x y rest hm ih =>
    intro h
    rcases Bool.and_eq_true .. |>.mp hm with ⟨hx, hy⟩
    rcases List.mem_cons.mp h with rfl | h2
    · exact absurd (beq_iff_eq.mp hx) hca
    · rcases List.mem_cons.mp h2 with rfl | h3
      · exact absurd (beq_iff_eq.mp hy) hcb
      · have hrec : c ∈ pyReplace2 a b r rest := ih h3
        simp [pyReplace2, hm, hrec]
  | case4 x y rest hm ih =>
    intro h
    have hm2 : (x == a && y == b) = false := by simpa using hm
    rcases List.mem_cons.mp h with rfl | h2
    · simp [pyReplace2, hm2]
    · have hrec : c ∈ pyReplace2 a b r (y :: rest) := ih h2
      simp [pyReplace2, hm2, hrec]

/-- When the head of the list cannot start the pattern, a replace pass
keeps it in place. -/
theorem pyReplace2_cons_ne_head (a b r d : Char) (rest : List Char) (hda : d ≠ a) :
    ∃ t, pyReplace2 a b r (d :: rest) = d :: t := by
  cases rest with
  | nil => exact ⟨[], rfl⟩
  | cons e v2 =>
    have h : (d == a && e == b) = false := by simp [hda]
    exact ⟨pyReplace2 a b r (e :: v2), by simp [pyReplace2, h]⟩

/-- An adjacent two-character occurrence whose characters avoid the pattern
in the conflicting positions survives a replace pass adjacent. -/
theorem adj_pyReplace2 (a b r x y : Char) (hxb : x ≠ b) (hya : y ≠ a) (hyb : y ≠ b) :
    ∀ (xs : List Char), (∃ u v, xs = u ++ x :: y :: v) →
      ∃ u v, pyReplace2 a b r xs = u ++ x :: y :: v := by
  intro xs
  induction xs using pyReplace2.induct a b r with
  | case1 =>
    rintro ⟨u, v, hu⟩
    exact absurd hu (by simp)
  | case2 c =>
    rintro ⟨u, v, hu⟩
    have hlen := congrArg List.length hu
    simp at hlen
    omega
  | case3 c d rest hm ih =>
    rintro ⟨u, v, hu⟩
    rcases Bool.and_eq_true .. |>.mp hm with ⟨hc, hd⟩
    match u, hu with
    | [], hu =>
      injection hu with h1 h2
      injection h2 with h3 h4
      exact absurd (h3.symm.trans (beq_iff_eq.mp hd)) hyb
    | [w], hu =>
      injection hu with h1 h2
      injection h2 with h3 h4
      exact absurd (h3.symm.trans (beq_iff_eq.mp hd)) hxb
    | w :: z :: u2, hu =>
      injection hu with h1 h2
      injection h2 with h3 h4
      obtain ⟨p, q, hp⟩ := ih ⟨u2, v, h4⟩
      exact ⟨r :: p, q, by simp [pyReplace2, hm, hp]⟩
  | case4 c d rest hm ih =>
    rintro ⟨u, v, hu⟩
    have hm2 : (c == a && d == b) = false := by simpa using hm
    match u, hu with
    | [], hu =>
      injection hu with h1 h2
      injection h2 with h3 h4
      obtain ⟨t, ht⟩ := pyReplace2_cons_ne_head a b r d rest (by rw [h3]; exact hya)
      refine ⟨[], t, ?_⟩
      rw [List.nil_append, ← h1, ← h3]
      simp [pyReplace2, hm2, ht]
    | w :: u2, hu =>
      injection hu with h1 h2
      obtain ⟨p, q, hp⟩ := ih ⟨u2, v, h2⟩
      exact ⟨c :: p, q, by simp [pyReplace2, hm2, hp]⟩

/-- C7: the template extractor post-processes its span by the fixed
unescape chain `\x5c\x60 to \x60`, `\x5c\x27 to \x27`, `\x5c$ to $`: for
every buffer of the escaped-anchor family whose literal body contains an
escaped backtick, an escaped single quote, and an escaped dollar sign, the
extractor returns a present span containing those three characters
unescaped (as literal characters). -/
theorem C7_template_output_contains_unescaped_chars (body post : List Char) (hb : TBody body)
    (hlast : body.getLastD bt ≠ bs)
    (h1 : ∃ u v, body = u ++ bs :: bt :: v)
    (h2 : ∃ u v, body = u ++ bs :: squo :: v)
    (h3 : ∃ u v, body = u ++ bs :: '$' :: v) :
    ∃ out, extract_template (templateBuf body post) = some out ∧
      bt ∈ out ∧ squo ∈ out ∧ '$' ∈ out := by
  refine ⟨pyUnescape body, extract_template_family body post hb hlast, ?_, ?_, ?_⟩
  · obtain ⟨u, v, rfl⟩ := h1
    have hm1 : bt ∈ pyReplace2 bs bt bt (u ++ bs :: bt :: v) := mem_pyReplace2_of_adj bs bt bt u v
    have hm2 : bt ∈ pyReplace2 bs squo squo (pyReplace2 bs bt bt (u ++ bs :: bt :: v)) :=
      mem_pyReplace2_of_mem bs squo squo bt (by decide) (by decide) _ hm1
    exact mem_pyReplace2_of_mem bs '$' '$' bt (by decide) (by decide) _ hm2
  · have ha1 : ∃ u v, pyReplace2 bs bt bt body = u ++ bs :: squo :: v :=
      adj_pyReplace2 bs bt bt bs squo (by decide) (by decide) (by decide) body h2
    obtain ⟨u, v, hu⟩ := ha1
    have hm2 : squo ∈ pyReplace2 bs squo squo (pyReplace2 bs bt bt body) := by
      rw [hu]
      exact mem_pyReplace2_of_adj bs squo squo u v
    exact mem_pyReplace2_of_mem bs '$' '$' squo (by decide) (by decide) _ hm2
  · have ha1 : ∃ u v, pyReplace2 bs bt bt body = u ++ bs :: '$' :: v :=
      adj_pyReplace2 bs bt bt bs '$' (by decide) (by decide) (by decide) body h3
    have ha2 : ∃ u v, pyReplace2 bs squo squo (pyReplace2 bs bt bt body) = u ++ bs :: '$' :: v :=
      adj_pyReplace2 bs squo squo bs '$' (by decide) (by decide) (by decide) _ ha1
    obtain ⟨u, v, hu⟩ := ha2
    show '$' ∈ pyReplace2 bs '$' '$' (pyReplace2 bs squo squo (pyReplace2 bs bt bt body))
    rw [hu]
    exact mem_pyReplace2_of_adj bs '$' '$' u v

theorem C7_witness :
    ∃ out, extract_template (templateBuf [bs, bt, bs, squo, bs, '$'] []) = some out ∧
      bt ∈ out ∧ squo ∈ out ∧ '$' ∈ out :=
  C7_template_output_contains_unescaped_chars [bs, bt, bs, squo, bs, '$'] []
    (TBody.esc (TBody.chr (by decide)
      (TBody.chr (by decide) (TBody.chr (by decide) (TBody.chr (by decide) TBody.nil)))))
    (by decide)
    ⟨[], [bs, squo, bs, '$'], rfl⟩ ⟨[bs, bt], [bs, '$'], rfl⟩ ⟨[bs, bt, bs, squo], [], rfl⟩

theorem charAt_shift (pre xs : List Char) (k : Nat) :
    charAt (pre ++ xs) (pre.length + k) = charAt xs k := by
  unfold charAt
  rw [List.drop_append]

theorem litAt_shift (pre xs lit : List Char) (k : Nat) :
    litAt (pre ++ xs) (pre.length + k) lit = litAt xs k lit := by
  unfold litAt
  rw [List.drop_append]

theorem skipSpaces_shift (pre xs : List Char) (k : Nat) :
    skipSpaces (pre ++ xs) (pre.length + k) = pre.length + skipSpaces xs k := by
  unfold skipSpaces
  rw [List.drop_append]
  omega

theorem pySlice_shift (pre xs : List Char) (a b : Nat) :
    pySlice (pre ++ xs) (pre.length + a) (pre.length + b) = pySlice xs a b := by
  unfold pySlice
  rw [List.take_append, List.drop_append]

/-- The absolute index returned by the brace scan shifts with the index
counter: the scan's decisions depend only on the characters, not on `i`. -/
theorem fmbGo_shift (chars : List Char) : ∀ (prev : Option Char) (i L : Nat) (s : QState)
    (j : Nat), fmbGo chars prev i s = (j : Int) →
    fmbGo chars prev (L + i) s = ((L + j : Nat) : Int) := by
  induction chars with
  | nil =>
    intro prev i L s j h
    simp only [fmbGo] at h
    omega
  | cons c rest ih =>
    intro prev i L s j h
    by_cases hc : (c == '\x7d' && !(qstep c prev s).in_string && (qstep c prev s).depth == 0) = true
    · have hj : (i : Int) = (j : Int) := by
        rw [← h]; simp only [fmbGo]; rw [if_pos hc]; rfl
      have hij : i = j := by omega
      subst hij
      simp only [fmbGo]
      rw [if_pos hc]
      rfl
    · simp only [fmbGo] at h ⊢
      rw [if_neg hc] at h ⊢
      have := ih (some c) (i + 1) L (qstep c prev s) j h
      rw [show L + (i + 1) = L + i + 1 from by omega] at this
      exact this

/-- `find_matching_brace` shifts across a prefix: scanning `pre ++ xs`
from an index at least one past the boundary behaves as scanning `xs`,
with all indices displaced by the prefix length (index `k ≥ 1` keeps the
one-character look-behind inside `xs`). -/
theorem find_matching_brace_shift (pre xs : List Char) (k : Nat) (hk : 1 ≤ k) (j : Nat)
    (h : find_matching_brace xs k = (j : Int)) :
    find_matching_brace (pre ++ xs) (pre.length + k) = ((pre.length + j : Nat) : Int) := by
  unfold find_matching_brace at h ⊢
  rw [List.drop_append]
  have hp1 : prevOpt (pre ++ xs) (pre.length + k) = prevOpt xs k := by
    unfold prevOpt
    have h1 : (pre.length + k == 0) = false := by simp; omega
    have h2 : (k == 0) = false := by simp; omega
    rw [h1, h2]
    simp only [Bool.false_eq_true, if_false]
    rw [show pre.length + k - 1 = pre.length + (k - 1) from by omega, charAt_shift]
  rw [hp1]
  exact fmbGo_shift (xs.drop k) (prevOpt xs k) k pre.length ⟨false, none, 0⟩ j h

/-- `re.search` returns the first matching position's result. -/
theorem searchGo_first (f : Nat → Option Nat) :
    ∀ (n p m e : Nat), p ≤ m → m < p + n → (∀ q, p ≤ q → q < m → f q = none) →
      f m = some e → searchGo f n p = some e := by
  intro n
  induction n with
  | zero => intro p m e h1 h2 _ _; omega
  | succ n2 ih =>
    intro p m e h1 h2 hnone hm
    by_cases hpm : p = m
    · subst hpm
      simp [searchGo, hm]
    · have hfp : f p = none := hnone p (Nat.le_refl p) (by omega)
      simp only [searchGo, hfp]
      exact ih (p + 1) m e (by omega) (by omega) (fun q hq1 hq2 => hnone q (by omega) hq2) hm

/-- The `data()` anchor matches at the prefix boundary of the C8 buffer
family, with match end 17 characters past it (one past the second opening
brace of the snippet). -/
theorem matchDataAt_c8 (pre post : List Char) :
    matchDataAt (pre ++ (dataSnippet ++ post)) pre.length = some (pre.length + 17) := by
  have e1 : litAt (pre ++ (dataSnippet ++ post)) pre.length ("data()".data) = true := by
    have h := litAt_shift pre (dataSnippet ++ post) ("data()".data) 0
    rw [Nat.add_zero] at h
    rw [h]
    rfl
  have e2 : skipSpaces (pre ++ (dataSnippet ++ post)) (pre.length + 6) = pre.length + 7 := by
    rw [skipSpaces_shift]
    rfl
  have e3 : charAt (pre ++ (dataSnippet ++ post)) (pre.length + 7) = '\x7b' := by
    rw [charAt_shift]
    rfl
  have e4 : skipSpaces (pre ++ (dataSnippet ++ post)) (pre.length + 7 + 1) = pre.length + 9 := by
    rw [show pre.length + 7 + 1 = pre.length + 8 from by omega, skipSpaces_shift]
    rfl
  have e5 : litAt (pre ++ (dataSnippet ++ post)) (pre.length + 9) ("return".data) = true := by
    rw [litAt_shift]
    rfl
  have e6 : skipSpaces (pre ++ (dataSnippet ++ post)) (pre.length + 9 + 6) = pre.length + 16 := by
    rw [show pre.length + 9 + 6 = pre.length + 15 from by omega, skipSpaces_shift]
    rfl
  have e7 : charAt (pre ++ (dataSnippet ++ post)) (pre.length + 16) = '\x7b' := by
    rw [charAt_shift]
    rfl
  unfold matchDataAt
  simp only [e1, e2, e3, e4, e5, e6, e7, beq_self_eq_true, eq_self_iff_true, if_true]

/-- C8: for every buffer consisting of the snippet
`data() \x7b return \x7b count: 0 \x7d; \x7d` with an arbitrary suffix
and an arbitrary prefix in which the `data()` anchor does not occur (so the
snippet is the buffer's first data section), `extract_data` returns the
substring strictly between the return-object's braces, exclusive of both
braces and with the original whitespace kept: exactly ` count: 0 `. -/
theorem C8_data_extraction_exact_slice (pre post : List Char)
    (hpre : ∀ p, p < pre.length →
      litAt (pre ++ (dataSnippet ++ post)) p ("data()".data) = false) :
    extract_data (pre ++ (dataSnippet ++ post)) = some (" count: 0 ".data) := by
  have hsearch : searchData (pre ++ (dataSnippet ++ post)) = some (pre.length + 17) := by
    apply searchGo_first _ _ 0 pre.length (pre.length + 17) (Nat.zero_le _)
    · rw [List.length_append]
      have : 0 < (dataSnippet ++ post).length := by
        rw [List.length_append]
        have : dataSnippet.length = 31 := rfl
        omega
      omega
    · intro q _ hq
      simp [matchDataAt, hpre q hq]
    · exact matchDataAt_c8 pre post
  have hfmb : find_matching_brace (pre ++ (dataSnippet ++ post)) (pre.length + 16)
      = ((pre.length + 27 : Nat) : Int) :=
    find_matching_brace_shift pre _ 16 (by omega) 27 (by rfl)
  simp only [extract_data, hsearch]
  rw [show pre.length + 17 - 1 = pre.length + 16 from by omega, hfmb]
  have hne : ((((pre.length + 27 : Nat)) : Int) == -1) = false := by
    rw [beq_eq_false_iff_ne]
    intro hx
    omega
  rw [hne]
  simp only [Bool.false_eq_true, if_false]
  have htn : (((pre.length + 27 : Nat) : Int)).toNat = pre.length + 27 := by omega
  rw [htn, show pre.length + 16 + 1 = pre.length + 17 from by omega, pySlice_shift]
  rfl

theorem C8_witness :
    extract_data (("x = 1;\n".data) ++ (dataSnippet ++ (" \x7d junk".data)))
      = some (" count: 0 ".data) :=
  C8_data_extraction_exact_slice ("x = 1;\n".data) (" \x7d junk".data) (by decide)
